import Mathlib

/-!
PageChat: registry, broadcast fan-out and history cache

A shallow embedding of `src/main.go`.  Each loop body of the program is one
function on an explicit state:

* `handleConnections` is one iteration of the read loop of the connection
  handler (lines 89-120), given the result of `ws.ReadJSON`;
* `handleMessages` is one iteration of the broadcast loop (lines 125-151),
  given the message taken from the `broadcast` channel;
* `remove` is the slice helper of lines 154-157;
* `messagesHandler` is the `/messages` HTTP handler (lines 46-60).

A connection (`*websocket.Conn`) is a pointer compared by identity, modelled by
a natural number.  The map `clients` is a total function from the website to the
member slice, the absent key being the nil slice.  A Go slice is a window on a
backing array: `remove` writes into that array and returns a shorter window, so
it is modelled as returning both the array after the write and the returned
window.  Functions that can panic in Go (index out of range) return `Option`.
-/

namespace PageChat

/-- A connection handle: the identity of a `*websocket.Conn`. -/
abbrev Conn := Nat

set_option linter.dupNamespace false in
/-- The `Message` struct of lines 26-31.  `Websocket` is the originating
connection; it is not serialised. -/
structure Message where
  Website : String
  Username : String
  Message : String
  Websocket : Conn
deriving DecidableEq, Repr

/-- The global `clients` map (line 18): website to member slice. -/
abbrev Clients := String → List Conn

/-- The map created by `make` on line 18: no key is present. -/
def emptyClients : Clients := fun _ => []

/-- The assignment `clients[w] = s`. -/
def setClients (clients : Clients) (w : String) (s : List Conn) : Clients :=
  fun k => if k = w then s else clients k

/-! ## The history cache -/

/-- The retention window set on line 40, `24 * time.Hour`, in nanoseconds. -/
def ttl : Nat := 24 * 3600 * 1000000000

/-- One cache item: the stored slice and its expiration deadline. -/
structure CacheEntry where
  value : List Message
  deadline : Nat
deriving DecidableEq, Repr

/-- Modelled from the spec: the `ttlcache.SimpleCache` held in `cache` (line 23)
is library code that is not part of the repository.  Following section 4.2 of
the specification it is a map from the website to a stored sequence with an
expiration deadline. -/
abbrev Cache := String → Option CacheEntry

/-- Modelled from the spec: `cache.Get(key)` at time `now` yields the stored
sequence, or nothing (the nil interface value, with an error the program drops)
when the key is absent or its deadline has passed. -/
def Cache.Get (c : Cache) (now : Nat) (key : String) : Option (List Message) :=
  match c key with
  | none => none
  | some e => if now < e.deadline then some e.value else none

/-- Modelled from the spec: `cache.Set(key, value)` at time `now` stores the
value and sets the deadline of that key to `now + ttl`. -/
def Cache.Set (c : Cache) (now : Nat) (key : String) (value : List Message) : Cache :=
  fun k => if k = key then some ⟨value, now + ttl⟩ else c k

/-- The cache right after `ttlcache.NewCache()`. -/
def emptyCache : Cache := fun _ => none

/-! ## The slice helper and the deregistration loop -/

/-- The function `remove` of lines 154-157: `s[i] = s[len(s)-1]` followed by
`return s[:len(s)-1]`.  The first component is the backing array of `s` after
the in-place write (it is what every other slice sharing the array, the map
entry included, now shows); the second is the returned shorter slice.  Reading
`s[len(s)-1]` of an empty slice, or writing at an index out of range, panics. -/
def remove (s : List Conn) (i : Nat) : Option (List Conn × List Conn) :=
  match s[s.length - 1]? with
  | none => none
  | some last =>
    if i < s.length then
      some (s.set i last, (s.set i last).take (s.length - 1))
    else none

/-- The loop `for i, client := range clients[w] { if client == h { remove(clients[w], i) } }`
(lines 110-114 with `h = ws`, lines 144-148 with `h = msg.Websocket`), started
at index `i` with `k` iterations left.  The range expression is evaluated once,
so the number of iterations is fixed; the element is read from the backing
array when its iteration starts; the slice returned by `remove` is dropped and
the map entry keeps its length, only the in-place write remains. -/
def removeLoopFrom (h : Conn) : Nat → Nat → List Conn → Option (List Conn)
  | 0, _, s => some s
  | k + 1, i, s =>
    match s[i]? with
    | none => none
    | some client =>
      if client = h then
        match remove s i with
        | none => none
        | some (arr, _) => removeLoopFrom h k (i + 1) arr
      else removeLoopFrom h k (i + 1) s

/-- The whole deregistration loop over the slice `s`. -/
def removeLoop (s : List Conn) (h : Conn) : Option (List Conn) :=
  removeLoopFrom h s.length 0 s

/-! ## The connection handler -/

/-- The search loop of lines 95-101. -/
def clientFound (ws : Conn) : List Conn → Bool
  | [] => false
  | client :: rest => if client = ws then true else clientFound ws rest

/-- The block "Register our new client" of lines 94-106: the search for `ws`
in `clients[w]` and the append when it was not found. -/
def register (clients : Clients) (ws : Conn) (w : String) : Clients :=
  if clientFound ws (clients w) then clients
  else setClients clients w (clients w ++ [ws])

/-- One iteration of the read loop of `handleConnections` (lines 89-120) on the
connection `ws`.  `msg` is the value `ws.ReadJSON` left in the message variable
(its zero value, or whatever was decoded, when the read failed) and `err` says
whether the read returned an error.  The result is the registry after the
iteration and the message sent to the `broadcast` channel, if any; after an
error the loop breaks. -/
def handleConnections (clients : Clients) (ws : Conn) (msg : Message) (err : Bool) :
    Option (Clients × Option Message) :=
  let clients1 := register clients ws msg.Website
  if err then
    match removeLoop (clients1 msg.Website) ws with
    | none => none
    | some arr => some (setClients clients1 msg.Website arr, none)
  else
    some (clients1, some { msg with Websocket := ws })

/-- One read of a connection: the handle, the decoded message and whether the
read failed. -/
structure ReadEvent where
  ws : Conn
  msg : Message
  err : Bool
deriving DecidableEq, Repr

/-- A sequence of connection read steps, run one after the other. -/
def runReads (clients : Clients) : List ReadEvent → Option Clients
  | [] => some clients
  | e :: rest =>
    match handleConnections clients e.ws e.msg e.err with
    | none => none
    | some (clients1, _) => runReads clients1 rest

/-! ## The broadcast coordinator -/

/-- One call of `client.WriteJSON`: the receiver, the value written and whether
the call returned an error (in which case `client.Close()` follows). -/
structure Write where
  client : Conn
  payload : Message
  failed : Bool
deriving DecidableEq, Repr

/-- The fan-out loop of lines 139-150, started at index `j` with `k` iterations
left.  `clientsByWebsite` and `clients[msg.Website]` are the same slice, so the
loop reads its element `j` from the array the inner deregistration loop writes
to.  `werr j client` says whether the write of iteration `j` to `client` fails.
The result is the backing array and the writes made, in order. -/
def fanOutFrom (werr : Nat → Conn → Bool) (out : Message) (sender : Conn) :
    Nat → Nat → List Conn → List Write → Option (List Conn × List Write)
  | 0, _, s, log => some (s, log)
  | k + 1, j, s, log =>
    match s[j]? with
    | none => none
    | some client =>
      if werr j client then
        match removeLoop s sender with
        | none => none
        | some arr => fanOutFrom werr out sender k (j + 1) arr (log ++ [⟨client, out, true⟩])
      else fanOutFrom werr out sender k (j + 1) s (log ++ [⟨client, out, false⟩])

/-- The registry and the history cache. -/
structure State where
  clients : Clients
  cache : Cache

/-- One iteration of the loop of `handleMessages` (lines 125-151) at time `now`
for the message `msg` received from the `broadcast` channel.  `Censor` is
`goaway.Censor`.  The result is the state after the iteration and the writes
made. -/
def handleMessages (Censor : String → String) (werr : Nat → Conn → Bool) (now : Nat)
    (st : State) (msg : Message) : Option (State × List Write) :=
  let censoredMessage := Censor msg.Message
  let tempMsgs :=
    match st.cache.Get now msg.Website with
    | none => []
    | some stored => stored
  let tempMsgs := tempMsgs ++ [⟨msg.Website, msg.Username, censoredMessage, msg.Websocket⟩]
  let cache := st.cache.Set now msg.Website tempMsgs
  let clientsByWebsite := st.clients msg.Website
  match fanOutFrom werr ⟨msg.Website, msg.Username, censoredMessage, msg.Websocket⟩
      msg.Websocket clientsByWebsite.length 0 clientsByWebsite [] with
  | none => none
  | some (arr, log) => some (⟨setClients st.clients msg.Website arr, cache⟩, log)

/-! ## The history lookup endpoint -/

/-- The JSON object a `Message` is encoded to: the `Websocket` field has the tag
`json:"-"` and is left out. -/
structure Envelope where
  website : String
  username : String
  message : String
deriving DecidableEq, Repr

/-- What `json.NewEncoder(w).Encode` writes for the values the handler can hold:
`null` for the nil interface value, an array for a slice of messages. -/
inductive JSON where
  | null : JSON
  | array : List Envelope → JSON
deriving DecidableEq, Repr

/-- The encoding of one message. -/
def envelope (m : Message) : Envelope := ⟨m.Website, m.Username, m.Message⟩

/-- The encoder on an interface value: nil, or a slice of messages. -/
def encode : Option (List Message) → JSON
  | none => JSON.null
  | some ms => JSON.array (ms.map envelope)

/-- The `/messages` handler of lines 46-60 at time `now`, for the value of the
`website` query parameter.  The result is the encoded response body, or nothing
when the handler returns without writing one. -/
def messagesHandler (cache : Cache) (now : Nat) (website : String) : Option JSON :=
  if website = "" then none
  else
    let messages := cache.Get now website
    let messages :=
      match messages with
      | none => some []
      | some stored => some stored
    some (encode messages)

/-! ## Auxiliary definitions for the statements -/

/-- What the deregistration loop for `h` makes of one element when the last
element of the slice is `last`. -/
def overwrite (h last : Conn) (c : Conn) : Conn := if c = h then last else c

/-- The last element of the slice, or `h` for the empty slice. -/
def lastOr (s : List Conn) (h : Conn) : Conn := (s[s.length - 1]?).getD h

/-- The message the broadcast step stores and writes: the fields of `msg` with
the body replaced by its censored form. -/
def censored (Censor : String → String) (msg : Message) : Message :=
  ⟨msg.Website, msg.Username, Censor msg.Message, msg.Websocket⟩

/-- The sequence `cache.Get` hands to the broadcast step: the stored one, or the
empty one made on line 133. -/
def storedBefore (c : Cache) (now : Nat) (w : String) : List Message :=
  match c.Get now w with
  | none => []
  | some stored => stored

/-! ## Concrete inputs -/

/-- Every write succeeds. -/
def noErr : Nat → Conn → Bool := fun _ _ => false

/-- The writes to the connection `bad` fail (its peer has gone away), all
others succeed. -/
def failsOn (bad : Conn) : Nat → Conn → Bool := fun _ c => c == bad

/-- A stand-in for `goaway.Censor` on the inputs of the scenarios: it masks one
word and leaves every other text as it is. -/
def censorDemo : String → String := fun s => if s = "darn" then "****" else s

/-- A successful read by connection `ws` of a message for the website `w`; the
decoded message carries no connection (0 stands for the nil pointer). -/
def readOk (ws : Conn) (w : String) : ReadEvent := ⟨ws, ⟨w, "user", "hello", 0⟩, false⟩

/-- A failed read by connection `ws` that left `w` in the website field. -/
def readErr (ws : Conn) (w : String) : ReadEvent := ⟨ws, ⟨w, "", "", 0⟩, true⟩

/-- The registry with the one room "a" and the given members. -/
def roomA (members : List Conn) : Clients := setClients emptyClients "a" members

/-! ## The deregistration loop in closed form -/

theorem remove_of_lt {s : List Conn} {i : Nat} {last : Conn}
    (hlast : s[s.length - 1]? = some last) (hi : i < s.length) :
    remove s i = some (s.set i last, (s.set i last).take (s.length - 1)) := by
  simp [remove, hlast, hi]

theorem last_set {s : List Conn} {i : Nat} {last : Conn}
    (hlast : s[s.length - 1]? = some last) :
    (s.set i last)[(s.set i last).length - 1]? = some last := by
  rw [List.length_set, List.getElem?_set]
  split
  · rename_i h
    have : s.length - 1 < s.length := by
      by_contra hc
      rw [List.getElem?_eq_none (by omega)] at hlast
      cases hlast
    rw [if_pos (by omega)]
  · exact hlast

theorem removeLoopFrom_eq (h last : Conn) :
    ∀ (k i : Nat) (s : List Conn), i + k = s.length → s[s.length - 1]? = some last →
      removeLoopFrom h k i s = some (s.take i ++ (s.drop i).map (overwrite h last)) := by
  intro k
  induction k with
  | zero =>
    intro i s hik _
    have : i = s.length := by omega
    subst this
    simp [removeLoopFrom]
  | succ k ih =>
    intro i s hik hlast
    have hi : i < s.length := by omega
    rw [removeLoopFrom, List.getElem?_eq_getElem hi]
    simp only
    have hdrop : s.drop i = s[i] :: s.drop (i + 1) := List.drop_eq_getElem_cons hi
    have htake : s.take (i + 1) = s.take i ++ [s[i]] := by
      rw [List.take_succ, List.getElem?_eq_getElem hi]; rfl
    split
    · rename_i hc
      rw [remove_of_lt hlast hi]
      simp only
      rw [ih (i + 1) (s.set i last) (by rw [List.length_set]; omega) (last_set hlast)]
      have h1 : (s.set i last).drop (i + 1) = s.drop (i + 1) :=
        List.drop_set_of_lt last s (Nat.lt_succ_self i)
      have h2 : (s.set i last).take (i + 1) = s.take i ++ [last] := by
        rw [List.take_succ, List.set_take,
          List.set_eq_of_length_le (by rw [List.length_take]; exact Nat.min_le_left _ _),
          List.getElem?_set, if_pos rfl, if_pos hi]
        rfl
      rw [h1, h2, hdrop, List.map_cons, hc]
      simp [overwrite]
    · rename_i hc
      rw [ih (i + 1) s (by omega) hlast, htake, hdrop, List.map_cons]
      simp only [overwrite, if_neg hc, List.append_assoc, List.singleton_append]

theorem last_of_ne_nil {s : List Conn} (hs : s ≠ []) (h : Conn) :
    s[s.length - 1]? = some (lastOr s h) := by
  have hpos : 0 < s.length := List.length_pos.mpr hs
  have hlt : s.length - 1 < s.length := by omega
  simp [lastOr, List.getElem?_eq_getElem hlt]

theorem lastOr_mem {s : List Conn} (hs : s ≠ []) (h : Conn) : lastOr s h ∈ s := by
  have hl := last_of_ne_nil hs h
  exact List.getElem?_mem hl

theorem overwrite_last (h last : Conn) : overwrite h last last = last := by
  unfold overwrite
  split <;> rfl

theorem overwrite_idem (h last c : Conn) :
    overwrite h last (overwrite h last c) = overwrite h last c := by
  by_cases hc : c = h
  · simp only [overwrite, if_pos hc]
    split <;> rfl
  · simp only [overwrite, if_neg hc]

theorem removeLoop_eq (s : List Conn) (h : Conn) :
    removeLoop s h = some (s.map (overwrite h (lastOr s h))) := by
  by_cases hs : s = []
  · subst hs
    rfl
  · have := removeLoopFrom_eq h (lastOr s h) s.length 0 s (by omega) (last_of_ne_nil hs h)
    simpa [removeLoop] using this

theorem removeLoop_length {s r : List Conn} {h : Conn} (hr : removeLoop s h = some r) :
    r.length = s.length := by
  rw [removeLoop_eq] at hr
  cases hr
  simp

theorem removeLoop_mem {s r : List Conn} {h c : Conn} (hr : removeLoop s h = some r)
    (hc : c ∈ r) : c ∈ s := by
  rw [removeLoop_eq] at hr
  cases hr
  obtain ⟨d, hd, hdc⟩ := List.mem_map.mp hc
  have hs : s ≠ [] := List.ne_nil_of_mem hd
  unfold overwrite at hdc
  split at hdc
  · rw [← hdc]; exact lastOr_mem hs h
  · rw [← hdc]; exact hd

theorem removeLoop_keep {s r : List Conn} {h c : Conn} (hr : removeLoop s h = some r)
    (hc : c ∈ s) (hne : c ≠ h) : c ∈ r := by
  rw [removeLoop_eq] at hr
  cases hr
  exact List.mem_map.mpr ⟨c, hc, by simp [overwrite, hne]⟩

theorem removeLoop_absent {s : List Conn} {h : Conn} (hs : h ∉ s) :
    removeLoop s h = some s := by
  rw [removeLoop_eq]
  congr 1
  conv_rhs => rw [← List.map_id s]
  apply List.map_congr_left
  intro c hc
  have : c ≠ h := fun e => hs (e ▸ hc)
  simp [overwrite, this]

theorem removeLoop_again {s r : List Conn} {h : Conn} (hr : removeLoop s h = some r) :
    removeLoop r h = some r := by
  rw [removeLoop_eq] at hr
  cases hr
  rw [removeLoop_eq]
  by_cases hs : s = []
  · subst hs
    rfl
  · have hlast : lastOr (s.map (overwrite h (lastOr s h))) h = lastOr s h := by
      have h1 := last_of_ne_nil hs h
      unfold lastOr
      rw [List.length_map, List.getElem?_map, h1]
      simp [overwrite_last, lastOr]
    rw [hlast, List.map_map]
    congr 1
    apply List.map_congr_left
    intro c _
    exact overwrite_idem h _ c

/-! ## Lemmas on the connection handler -/

theorem clientFound_iff (ws : Conn) (l : List Conn) : clientFound ws l = true ↔ ws ∈ l := by
  induction l with
  | nil => simp [clientFound]
  | cons c rest ih =>
    unfold clientFound
    by_cases hc : c = ws
    · simp [hc]
    · have hne : ¬ ws = c := fun e => hc e.symm
      simp [hc, hne, ih]

theorem setClients_same (clients : Clients) (w : String) (s : List Conn) :
    setClients clients w s w = s := by
  simp [setClients]

theorem setClients_other (clients : Clients) {w k : String} (s : List Conn) (hk : k ≠ w) :
    setClients clients w s k = clients k := by
  simp [setClients, hk]

theorem register_mem (clients : Clients) (ws : Conn) (w0 w : String) (h : Conn) :
    h ∈ register clients ws w0 w ↔ h ∈ clients w ∨ (h = ws ∧ w = w0) := by
  unfold register
  by_cases hf : clientFound ws (clients w0) = true
  · rw [if_pos hf]
    have hmem := (clientFound_iff ws _).mp hf
    constructor
    · intro hh; exact Or.inl hh
    · rintro (hh | ⟨rfl, rfl⟩)
      · exact hh
      · exact hmem
  · rw [if_neg hf]
    by_cases hw : w = w0
    · subst hw
      rw [setClients_same]
      simp
    · rw [setClients_other _ _ hw]
      simp [hw]

theorem register_length (clients : Clients) (ws : Conn) (w0 w : String) :
    (clients w).length ≤ (register clients ws w0 w).length := by
  unfold register
  split
  · exact Nat.le_refl _
  · by_cases hw : w = w0
    · subst hw
      rw [setClients_same]
      simp
    · rw [setClients_other _ _ hw]

theorem handleConnections_ok (clients : Clients) (ws : Conn) (msg : Message) :
    handleConnections clients ws msg false =
      some (register clients ws msg.Website, some { msg with Websocket := ws }) := by
  simp [handleConnections]

theorem handleConnections_err (clients : Clients) (ws : Conn) (msg : Message) :
    ∃ arr, removeLoop (register clients ws msg.Website msg.Website) ws = some arr ∧
      handleConnections clients ws msg true =
        some (setClients (register clients ws msg.Website) msg.Website arr, none) := by
  refine ⟨_, removeLoop_eq _ _, ?_⟩
  simp [handleConnections, removeLoop_eq]

theorem handleConnections_total (clients : Clients) (ws : Conn) (msg : Message) (err : Bool) :
    ∃ r, handleConnections clients ws msg err = some r := by
  cases err
  · exact ⟨_, handleConnections_ok clients ws msg⟩
  · obtain ⟨arr, _, h⟩ := handleConnections_err clients ws msg
    exact ⟨_, h⟩

theorem handleConnections_length {clients : Clients} {ws : Conn} {msg : Message} {err : Bool}
    {r : Clients × Option Message} (hr : handleConnections clients ws msg err = some r)
    (w : String) : (clients w).length ≤ (r.1 w).length := by
  cases err
  · rw [handleConnections_ok] at hr
    cases hr
    exact register_length clients ws msg.Website w
  · obtain ⟨arr, harr, h⟩ := handleConnections_err clients ws msg
    rw [h] at hr
    cases hr
    by_cases hw : w = msg.Website
    · subst hw
      simp only [setClients_same]
      rw [removeLoop_length harr]
      exact register_length clients ws _ _
    · simp only [setClients_other _ _ hw]
      exact register_length clients ws _ _

theorem handleConnections_mem {clients : Clients} {ws : Conn} {msg : Message} {err : Bool}
    {r : Clients × Option Message} (hr : handleConnections clients ws msg err = some r)
    {h : Conn} {w : String} (hm : h ∈ r.1 w) :
    h ∈ clients w ∨ (h = ws ∧ w = msg.Website) := by
  cases err
  · rw [handleConnections_ok] at hr
    cases hr
    exact (register_mem clients ws msg.Website w h).mp hm
  · obtain ⟨arr, harr, h1⟩ := handleConnections_err clients ws msg
    rw [h1] at hr
    cases hr
    by_cases hw : w = msg.Website
    · subst hw
      simp only [setClients_same] at hm
      exact (register_mem clients ws _ _ h).mp (removeLoop_mem harr hm)
    · simp only [setClients_other _ _ hw] at hm
      exact (register_mem clients ws _ _ h).mp hm

theorem handleConnections_keep {clients : Clients} {ws : Conn} {msg : Message} {err : Bool}
    {r : Clients × Option Message} (hr : handleConnections clients ws msg err = some r)
    {h : Conn} {w : String} (hm : h ∈ clients w) (hne : h = ws → err = false) :
    h ∈ r.1 w := by
  have hreg : h ∈ register clients ws msg.Website w :=
    (register_mem clients ws msg.Website w h).mpr (Or.inl hm)
  cases err
  · rw [handleConnections_ok] at hr
    cases hr
    exact hreg
  · obtain ⟨arr, harr, h1⟩ := handleConnections_err clients ws msg
    rw [h1] at hr
    cases hr
    by_cases hw : w = msg.Website
    · subst hw
      simp only [setClients_same]
      refine removeLoop_keep harr hreg ?_
      intro e
      exact Bool.noConfusion (hne e)
    · simp only [setClients_other _ _ hw]
      exact hreg

theorem handleConnections_registers {clients : Clients} {ws : Conn} {msg : Message}
    {r : Clients × Option Message} (hr : handleConnections clients ws msg false = some r) :
    ws ∈ r.1 msg.Website := by
  rw [handleConnections_ok] at hr
  cases hr
  exact (register_mem clients ws msg.Website msg.Website ws).mpr (Or.inr ⟨rfl, rfl⟩)

/-! ## Lemmas on the fan-out -/

theorem fanOutFrom_total (werr : Nat → Conn → Bool) (out : Message) (sender : Conn) :
    ∀ (k j : Nat) (s : List Conn) (log : List Write), j + k = s.length →
      ∃ arr log1, fanOutFrom werr out sender k j s log = some (arr, log1) ∧
        arr.length = s.length := by
  intro k
  induction k with
  | zero =>
    intro j s log _
    exact ⟨s, log, rfl, rfl⟩
  | succ k ih =>
    intro j s log hjk
    have hj : j < s.length := by omega
    rw [fanOutFrom, List.getElem?_eq_getElem hj]
    simp only
    split
    · rw [removeLoop_eq]
      simp only
      obtain ⟨arr, log1, h1, h2⟩ :=
        ih (j + 1) (s.map (overwrite sender (lastOr s sender)))
          (log ++ [⟨s[j], out, true⟩]) (by rw [List.length_map]; omega)
      exact ⟨arr, log1, h1, by rw [h2, List.length_map]⟩
    · exact ih (j + 1) s _ (by omega)

theorem fanOutFrom_noerr (werr : Nat → Conn → Bool) (out : Message) (sender : Conn)
    (hok : ∀ j c, werr j c = false) :
    ∀ (k j : Nat) (s : List Conn) (log : List Write), j + k = s.length →
      fanOutFrom werr out sender k j s log =
        some (s, log ++ (s.drop j).map (fun c => ⟨c, out, false⟩)) := by
  intro k
  induction k with
  | zero =>
    intro j s log hjk
    have : s.length ≤ j := by omega
    simp [fanOutFrom, List.drop_eq_nil_of_le this]
  | succ k ih =>
    intro j s log hjk
    have hj : j < s.length := by omega
    rw [fanOutFrom, List.getElem?_eq_getElem hj]
    simp only [hok]
    rw [if_neg (by simp), ih (j + 1) s _ (by omega), List.drop_eq_getElem_cons hj]
    simp only [List.map_cons, List.append_assoc, List.singleton_append]

theorem handleMessages_total (Censor : String → String) (werr : Nat → Conn → Bool) (now : Nat)
    (st : State) (msg : Message) :
    ∃ arr log, arr.length = (st.clients msg.Website).length ∧
      handleMessages Censor werr now st msg =
        some (⟨setClients st.clients msg.Website arr,
          st.cache.Set now msg.Website (storedBefore st.cache now msg.Website ++
            [censored Censor msg])⟩, log) := by
  obtain ⟨arr, log, h1, h2⟩ := fanOutFrom_total werr (censored Censor msg) msg.Websocket
    (st.clients msg.Website).length 0 (st.clients msg.Website) [] (by omega)
  refine ⟨arr, log, h2, ?_⟩
  unfold handleMessages
  simp only [censored] at h1
  simp only [h1]
  rfl

theorem cache_get_set (c : Cache) (now t : Nat) (w : String) (v : List Message)
    (ht : t < now + ttl) : (c.Set now w v).Get t w = some v := by
  simp [Cache.Get, Cache.Set, ht]

/-! ## Lemmas on sequences of reads -/

theorem runReads_total (events : List ReadEvent) :
    ∀ clients : Clients, ∃ c, runReads clients events = some c := by
  induction events with
  | nil => intro clients; exact ⟨clients, rfl⟩
  | cons e rest ih =>
    intro clients
    obtain ⟨r, hr⟩ := handleConnections_total clients e.ws e.msg e.err
    obtain ⟨c, hc⟩ := ih r.1
    refine ⟨c, ?_⟩
    rw [runReads, hr]
    exact hc

theorem runReads_mem (events : List ReadEvent) :
    ∀ (clients c : Clients), runReads clients events = some c →
      ∀ (h : Conn) (w : String), h ∈ c w →
        h ∈ clients w ∨ ∃ e ∈ events, e.ws = h ∧ e.msg.Website = w := by
  induction events with
  | nil =>
    intro clients c hc h w hm
    cases hc
    exact Or.inl hm
  | cons e rest ih =>
    intro clients c hc h w hm
    obtain ⟨r, hr⟩ := handleConnections_total clients e.ws e.msg e.err
    rw [runReads, hr] at hc
    rcases ih r.1 c hc h w hm with h1 | ⟨e1, he1, h2⟩
    · rcases handleConnections_mem hr h1 with h3 | ⟨h3, h4⟩
      · exact Or.inl h3
      · exact Or.inr ⟨e, List.mem_cons_self _ _, h3.symm, h4.symm⟩
    · exact Or.inr ⟨e1, List.mem_cons_of_mem _ he1, h2⟩

theorem runReads_keep (events : List ReadEvent) :
    ∀ (clients c : Clients), runReads clients events = some c →
      ∀ (h : Conn), (∀ e ∈ events, e.ws = h → e.err = false) →
        ∀ w : String, (h ∈ clients w ∨ ∃ e ∈ events, e.ws = h ∧ e.msg.Website = w) →
          h ∈ c w := by
  induction events with
  | nil =>
    intro clients c hc h _ w hm
    cases hc
    rcases hm with hm | ⟨e, he, _⟩
    · exact hm
    · cases he
  | cons e rest ih =>
    intro clients c hc h hok w hm
    obtain ⟨r, hr⟩ := handleConnections_total clients e.ws e.msg e.err
    rw [runReads, hr] at hc
    have hok1 : ∀ e1 ∈ rest, e1.ws = h → e1.err = false :=
      fun e1 he1 => hok e1 (List.mem_cons_of_mem _ he1)
    have hee : e.ws = h → e.err = false := hok e (List.mem_cons_self _ _)
    apply ih r.1 c hc h hok1 w
    rcases hm with hm | ⟨e1, he1, h1, h2⟩
    · exact Or.inl (handleConnections_keep hr hm (fun x => hee x.symm))
    · rcases List.mem_cons.mp he1 with rfl | he1
      · left
        have herr : e1.err = false := hee h1
        rw [herr] at hr
        have := handleConnections_registers hr
        rw [h1, h2] at this
        exact this
      · exact Or.inr ⟨e1, he1, h1, h2⟩

/-! ## The claims -/

/-- C1: for every message, cache state, censorship function and pattern of write
failures, one broadcast step at time `now` returns, and a `Get` of the message's
website at any time `t` before the new deadline `now + ttl` yields the sequence
`Get` gave the step (empty when absent or expired) with one entry appended at
its end: the message's website, username and connection with the body
`Censor msg.Message`. -/
theorem C1_history_holds_censored (Censor : String → String) (werr : Nat → Conn → Bool)
    (now t : Nat) (st : State) (msg : Message) (ht : t < now + ttl) :
    ∃ st1 log, handleMessages Censor werr now st msg = some (st1, log) ∧
      st1.cache.Get t msg.Website =
        some ((st.cache.Get now msg.Website).getD [] ++
          [⟨msg.Website, msg.Username, Censor msg.Message, msg.Websocket⟩]) := by
  obtain ⟨arr, log, _, h⟩ := handleMessages_total Censor werr now st msg
  refine ⟨_, log, h, ?_⟩
  simp only
  rw [cache_get_set _ _ _ _ _ ht]
  unfold storedBefore censored
  cases st.cache.Get now msg.Website <;> rfl

/-- C1 at a concrete input: the word "darn" sent to the website "a" is stored as
"****" after the one message already in the history. -/
theorem C1_history_holds_censored_witness :
    5 < 0 + ttl ∧
    ∃ st1 log,
      handleMessages censorDemo (failsOn 2) 0
          ⟨roomA [1, 2], Cache.Set emptyCache 0 "a" [⟨"a", "bob", "hey", 2⟩]⟩
          ⟨"a", "alice", "darn", 1⟩ = some (st1, log) ∧
        st1.cache.Get 5 "a" =
          some [⟨"a", "bob", "hey", 2⟩, ⟨"a", "alice", "****", 1⟩] :=
  ⟨by decide,
    C1_history_holds_censored censorDemo (failsOn 2) 0 5
      ⟨roomA [1, 2], Cache.Set emptyCache 0 "a" [⟨"a", "bob", "hey", 2⟩]⟩
      ⟨"a", "alice", "darn", 1⟩ (by decide)⟩

/-- C2: when every write succeeds, one broadcast step writes once to each
handle of the member list of the message's room, in list order, the message
with the body `Censor msg.Message`; that value is the one appended to the
history; every member gets it, no handle outside this member list is written
to, and the registry is left as it was. -/
theorem C2_fanout_delivers_censored (Censor : String → String) (werr : Nat → Conn → Bool)
    (now : Nat) (st : State) (msg : Message) (hok : ∀ j c, werr j c = false) :
    ∃ st1 log, handleMessages Censor werr now st msg = some (st1, log) ∧
      log = (st.clients msg.Website).map
        (fun h => ⟨h, ⟨msg.Website, msg.Username, Censor msg.Message, msg.Websocket⟩, false⟩) ∧
      (∀ h ∈ st.clients msg.Website,
        ⟨h, ⟨msg.Website, msg.Username, Censor msg.Message, msg.Websocket⟩, false⟩ ∈ log) ∧
      (∀ wr ∈ log, wr.client ∈ st.clients msg.Website) ∧
      st1.cache.Get now msg.Website =
        some ((st.cache.Get now msg.Website).getD [] ++
          [⟨msg.Website, msg.Username, Censor msg.Message, msg.Websocket⟩]) ∧
      ∀ w, st1.clients w = st.clients w := by
  have hfan := fanOutFrom_noerr werr
    ⟨msg.Website, msg.Username, Censor msg.Message, msg.Websocket⟩ msg.Websocket hok
    (st.clients msg.Website).length 0 (st.clients msg.Website) [] (by omega)
  have hstep : handleMessages Censor werr now st msg =
      some (⟨setClients st.clients msg.Website (st.clients msg.Website),
        st.cache.Set now msg.Website ((st.cache.Get now msg.Website).getD [] ++
          [⟨msg.Website, msg.Username, Censor msg.Message, msg.Websocket⟩])⟩,
        (st.clients msg.Website).map
          (fun h => ⟨h, ⟨msg.Website, msg.Username, Censor msg.Message, msg.Websocket⟩, false⟩)) := by
    unfold handleMessages
    simp only [hfan, List.drop_zero, List.nil_append]
    cases st.cache.Get now msg.Website <;> rfl
  refine ⟨_, _, hstep, rfl, ?_, ?_, ?_, ?_⟩
  · intro h hh
    exact List.mem_map.mpr ⟨h, hh, rfl⟩
  · intro wr hwr
    obtain ⟨h, hh, rfl⟩ := List.mem_map.mp hwr
    exact hh
  · exact cache_get_set _ _ _ _ _ (by unfold ttl; omega)
  · intro w
    by_cases hw : w = msg.Website
    · subst hw
      exact setClients_same _ _ _
    · exact setClients_other _ _ hw

/-- C2 at the scenario of the specification: connections 1 and 2 are members of
room "a" and connection 3 of room "b"; connection 1 sends "hi" as alice; the
text has no disallowed term; connection 2 is written the message of website "a",
username alice and body "hi", and connection 3 is not written to. -/
theorem C2_fanout_delivers_censored_witness :
    (∀ j c, noErr j c = false) ∧ censorDemo "hi" = "hi" ∧
    ∃ st1 log,
      handleMessages censorDemo noErr 0
          ⟨setClients (roomA [1, 2]) "b" [3], emptyCache⟩ ⟨"a", "alice", "hi", 1⟩ =
        some (st1, log) ∧
      log = [⟨1, ⟨"a", "alice", "hi", 1⟩, false⟩, ⟨2, ⟨"a", "alice", "hi", 1⟩, false⟩] ∧
      envelope ⟨"a", "alice", "hi", 1⟩ = ⟨"a", "alice", "hi"⟩ := by
  refine ⟨fun _ _ => rfl, by decide, ?_⟩
  obtain ⟨st1, log, h1, h2, _⟩ :=
    C2_fanout_delivers_censored censorDemo noErr 0
      ⟨setClients (roomA [1, 2]) "b" [3], emptyCache⟩ ⟨"a", "alice", "hi", 1⟩ (fun _ _ => rfl)
  exact ⟨st1, log, h1, h2, rfl⟩

/-- C3, the claim as stated fails: from the empty registry, connection 1 reads a
message for website "a" and then one for website "b", both reads succeeding;
afterwards it is in the member lists of both rooms, so it is not in at most one
room and it is not bound to the first website only. -/
theorem C3_handle_in_two_rooms :
    (runReads emptyClients [readOk 1 "a", readOk 1 "b"]).map (fun c => (c "a", c "b")) =
      some ([1], [1]) ∧
    ¬ (∀ (events : List ReadEvent) (c : Clients), runReads emptyClients events = some c →
        ∀ (h : Conn) (w1 w2 : String), h ∈ c w1 → h ∈ c w2 → w1 = w2) := by
  refine ⟨by decide, ?_⟩
  intro hall
  obtain ⟨c, hc⟩ := runReads_total [readOk 1 "a", readOk 1 "b"] emptyClients
  have hok : ∀ e ∈ [readOk 1 "a", readOk 1 "b"], e.ws = 1 → e.err = false := by
    intro e he _
    rcases List.mem_cons.mp he with rfl | he
    · rfl
    · rcases List.mem_cons.mp he with rfl | he
      · rfl
      · cases he
  have ha : 1 ∈ c "a" :=
    runReads_keep _ _ _ hc 1 hok "a" (Or.inr ⟨readOk 1 "a", by simp, rfl, rfl⟩)
  have hb : 1 ∈ c "b" :=
    runReads_keep _ _ _ hc 1 hok "b" (Or.inr ⟨readOk 1 "b", by simp, rfl, rfl⟩)
  have := hall _ c hc 1 "a" "b" ha hb
  exact absurd this (by decide)

/-- C3 as amended: from the empty registry every sequence of connection read
steps runs to the end; afterwards a handle is in the member list of a room only
if one of its reads carried that room's website; and a handle none of whose
reads failed is in the member list of every room whose website one of its reads
carried (a handle that sent w1 and later w2 is a member of both rooms). -/
theorem C3_membership_follows_reads (events : List ReadEvent) :
    ∃ c, runReads emptyClients events = some c ∧
      (∀ (h : Conn) (w : String), h ∈ c w → ∃ e ∈ events, e.ws = h ∧ e.msg.Website = w) ∧
      (∀ h : Conn, (∀ e ∈ events, e.ws = h → e.err = false) →
        ∀ w : String, (∃ e ∈ events, e.ws = h ∧ e.msg.Website = w) → h ∈ c w) := by
  obtain ⟨c, hc⟩ := runReads_total events emptyClients
  refine ⟨c, hc, ?_, ?_⟩
  · intro h w hm
    rcases runReads_mem events _ _ hc h w hm with h1 | h1
    · cases h1
    · exact h1
  · intro h hok w hw
    exact runReads_keep events _ _ hc h hok w (Or.inr hw)

/-- C4, the code at a failing input: connections 1 and 2 have registered in room
"a"; connection 1 sends a message and the write to connection 2 fails.  The
writes go to 1 (success) and 2 (failure), and the member list of room "a"
afterwards is [2, 2]: the failing handle 2 is still a member, the sender 1 was
overwritten instead. -/
theorem C4_failing_handle_stays :
    ((runReads emptyClients [readOk 1 "a", readOk 2 "a"]).bind fun c =>
      (handleMessages censorDemo (failsOn 2) 0 ⟨c, emptyCache⟩ ⟨"a", "alice", "hi", 1⟩).map
        fun r => (r.2.map (fun wr => (wr.client, wr.failed)), r.1.clients "a")) =
      some ([(1, false), (2, true)], [2, 2]) := by
  decide

/-- C5, the code at a failing input: connection 1 has registered in room "a" by
a successful read; its next read fails and leaves the website field empty.
Afterwards connection 1 is still the member of room "a" and has been added to
the room of the empty website.  When the failed read leaves "a" in the website
field, the member list of room "a" is unchanged as well. -/
theorem C5_failed_read_keeps_handle :
    (runReads emptyClients [readOk 1 "a", readErr 1 ""]).map (fun c => (c "a", c "")) =
      some ([1], [1]) ∧
    (runReads emptyClients [readOk 1 "a", readErr 1 "a"]).map (fun c => c "a") =
      some [1] := by
  decide

/-- C6, the code at a failing input: connections 1, 2 and 3 have registered in
room "a"; connection 1 sends a message and the write to connection 3 fails.
Afterwards the member list of room "a" is [3, 2, 3]: connection 1, which is not
the failing handle, is no longer a member. -/
theorem C6_sender_dropped_on_other_failure :
    ((runReads emptyClients [readOk 1 "a", readOk 2 "a", readOk 3 "a"]).bind fun c =>
      (handleMessages censorDemo (failsOn 3) 0 ⟨c, emptyCache⟩ ⟨"a", "alice", "hi", 1⟩).map
        fun r => (r.2.map (fun wr => (wr.client, wr.failed)), r.1.clients "a")) =
      some ([(1, false), (2, false), (3, true)], [3, 2, 3]) := by
  decide

/-- C7: for every registry, website and handle, the deregistration loop over the
member list returns; run again on its result it returns that result, so the
registry after two runs is the registry after one; and on a member list that
does not contain the handle it returns the list unchanged and the registry is
the same. -/
theorem C7_deregistration_idempotent (clients : Clients) (w : String) (h : Conn) :
    ∃ s1, removeLoop (clients w) h = some s1 ∧
      removeLoop (setClients clients w s1 w) h = some s1 ∧
      setClients (setClients clients w s1) w s1 = setClients clients w s1 ∧
      (h ∉ clients w → s1 = clients w ∧ setClients clients w s1 = clients) := by
  refine ⟨_, removeLoop_eq _ _, ?_, ?_, ?_⟩
  · rw [setClients_same]
    exact removeLoop_again (removeLoop_eq _ _)
  · funext k
    by_cases hk : k = w
    · subst hk
      simp [setClients]
    · simp [setClients, hk]
  · intro habs
    have h1 := removeLoop_absent habs
    rw [removeLoop_eq] at h1
    have h2 := Option.some.inj h1
    refine ⟨h2, ?_⟩
    rw [h2]
    funext k
    by_cases hk : k = w
    · subst hk
      simp [setClients]
    · simp [setClients, hk]

/-- C8: for a non-empty website value the `/messages` handler writes a body that
is never `null`: the empty array when the cache has no entry for the website
or the entry has expired, and the array of the stored messages, in order, when
it has an entry that has not expired. -/
theorem C8_lookup_absent_is_empty_array (cache : Cache) (now : Nat) (website : String)
    (hw : website ≠ "") :
    (cache website = none → messagesHandler cache now website = some (JSON.array [])) ∧
    (∀ e, cache website = some e → e.deadline ≤ now →
      messagesHandler cache now website = some (JSON.array [])) ∧
    (∀ e, cache website = some e → now < e.deadline →
      messagesHandler cache now website = some (JSON.array (e.value.map envelope))) ∧
    messagesHandler cache now website ≠ some JSON.null ∧
    messagesHandler cache now website ≠ none := by
  unfold messagesHandler
  rw [if_neg hw]
  refine ⟨?_, ?_, ?_, ?_, ?_⟩
  · intro hnone
    simp [Cache.Get, hnone, encode]
  · intro e he hexp
    simp [Cache.Get, he, Nat.not_lt.mpr hexp, encode]
  · intro e he hlive
    simp [Cache.Get, he, hlive, encode]
  · cases cache.Get now website <;> simp [encode]
  · simp

/-- C8 at a concrete input: a lookup of "b" in a cache that holds one message
for "a" gives the empty array, and a lookup of "a" gives that message. -/
theorem C8_lookup_absent_is_empty_array_witness :
    "b" ≠ "" ∧
    messagesHandler (Cache.Set emptyCache 0 "a" [⟨"a", "bob", "hey", 2⟩]) 7 "b" =
      some (JSON.array []) ∧
    "a" ≠ "" ∧
    messagesHandler (Cache.Set emptyCache 0 "a" [⟨"a", "bob", "hey", 2⟩]) 7 "a" =
      some (JSON.array [⟨"a", "bob", "hey"⟩]) :=
  ⟨by decide,
    (C8_lookup_absent_is_empty_array
      (Cache.Set emptyCache 0 "a" [⟨"a", "bob", "hey", 2⟩]) 7 "b" (by decide)).1 rfl,
    by decide,
    (C8_lookup_absent_is_empty_array
      (Cache.Set emptyCache 0 "a" [⟨"a", "bob", "hey", 2⟩]) 7 "a" (by decide)).2.2.1
        ⟨[⟨"a", "bob", "hey", 2⟩], 0 + ttl⟩ rfl (by decide)⟩

/-- C9, the code at a failing input: connections 1, 2 and 3 have registered in
room "a"; connection 2 sends a message and the write to connection 1 fails.
The fan-out began with the member list [1, 2, 3], and its three writes go to 1,
3 and 3: connection 2 is skipped and connection 3 is written to twice. -/
theorem C9_fanout_skips_and_repeats :
    ((runReads emptyClients [readOk 1 "a", readOk 2 "a", readOk 3 "a"]).bind fun c =>
      (handleMessages censorDemo (failsOn 1) 0 ⟨c, emptyCache⟩ ⟨"a", "bob", "hi", 2⟩).map
        fun r => (c "a", r.2.map (fun wr => (wr.client, wr.failed)))) =
      some ([1, 2, 3], [(1, true), (3, false), (3, false)]) := by
  decide

/-- C10: every step of the program returns and leaves every room's member list
at least as long as it was: a connection read step, successful or failed, and a
broadcast step with any pattern of write failures; and `remove` at an index in
range returns an array of the length of its argument (the write in place) and
a slice one shorter (the value the callers drop). -/
theorem C10_member_lists_never_shrink :
    (∀ (clients : Clients) (ws : Conn) (msg : Message) (err : Bool),
      ∃ r, handleConnections clients ws msg err = some r ∧
        ∀ w, (clients w).length ≤ (r.1 w).length) ∧
    (∀ (Censor : String → String) (werr : Nat → Conn → Bool) (now : Nat) (st : State)
        (msg : Message),
      ∃ r, handleMessages Censor werr now st msg = some r ∧
        ∀ w, (st.clients w).length ≤ (r.1.clients w).length) ∧
    (∀ (s : List Conn) (i : Nat), i < s.length →
      ∃ r, remove s i = some r ∧ r.1.length = s.length ∧ r.2.length = s.length - 1) := by
  refine ⟨?_, ?_, ?_⟩
  · intro clients ws msg err
    obtain ⟨r, hr⟩ := handleConnections_total clients ws msg err
    exact ⟨r, hr, handleConnections_length hr⟩
  · intro Censor werr now st msg
    obtain ⟨arr, log, hlen, h⟩ := handleMessages_total Censor werr now st msg
    refine ⟨_, h, ?_⟩
    intro w
    by_cases hw : w = msg.Website
    · subst hw
      simp only [setClients_same]
      exact Nat.le_of_eq hlen.symm
    · simp only [setClients_other _ _ hw]
      exact Nat.le_refl _
  · intro s i hi
    have hs : s ≠ [] := by
      intro e
      subst e
      cases hi
    refine ⟨_, remove_of_lt (last_of_ne_nil hs 0) hi, ?_, ?_⟩
    · simp
    · simp

end PageChat
